import Mathlib

/-!
Shallow embedding of the karakuri-sql-agent SQL gateway.

The definitions below are translated from `src/mastra/tools/sql-tool.ts`
(normalization, statement splitting, allow-list classification, query-type and
table-name estimation, and the Propose operation `runSQL`), from
`src/mastra/services/sql-token-store.ts` (the confirmation-token store) and from
`src/mastra/services/sql-executor.ts` (token-based execution and the
`lastInsertRowid` conversion).  JavaScript strings are modelled as `List Char`
(with thin `String` wrappers), `Date` timestamps as `Nat` milliseconds, the
`Map` of the token store as an association list, and the database collaborator
as an oracle `String → DbResult` together with an explicit log of the queries
that were passed to `execute`.
-/

namespace SqlAgent

/-! Character classes of the JavaScript regexes involved: `\s`, `\w`, `[A-Z]`. -/

/-- JavaScript regex `\s` (whitespace) on the code points that can occur here:
ASCII whitespace plus the Unicode space characters JS includes. -/
def jsSpace (c : Char) : Bool :=
  c = ' ' || c = '\t' || c = '\n' || c = '\r' || c = '\x0b' || c = '\x0c' ||
  c = ' ' || c = ' ' || (' ' ≤ c && c ≤ ' ') ||
  c = ' ' || c = ' ' || c = ' ' || c = ' ' ||
  c = '　' || c = '﻿'

/-- JavaScript regex `\w`: `[A-Za-z0-9_]`. -/
def isWordChar (c : Char) : Bool :=
  ('A' ≤ c && c ≤ 'Z') || ('a' ≤ c && c ≤ 'z') || ('0' ≤ c && c ≤ '9') || c = '_'

/-- JavaScript regex character class `[A-Z]`. -/
def isAZ (c : Char) : Bool :=
  'A' ≤ c && c ≤ 'Z'

/-- ECMAScript LineTerminator characters: `.` never matches them, and with the
`m` flag `$` matches immediately before each of them. -/
def isLineTerm (c : Char) : Bool :=
  c = '\n' || c = '\r' || c = ' ' || c = ' '

/-! Comment removal, the two `.replace` calls of `normalizeSql` that strip
`-- …` line comments and non-greedy `/* … */` block comments. -/

/-- Single-pass form of the first replace of `normalizeSql` (regex `--.*$`,
flags `gm`).  The flag records whether the scan is inside a line comment: on
`--` everything is dropped up to the next line terminator (`\n`, `\r`, U+2028
or U+2029), which itself is kept, as `.` does not match a LineTerminator and
the multiline `$` matches just before it. -/
def rlcAux : Bool → List Char → List Char
  | _, [] => []
  | true, c :: rest =>
    if isLineTerm c then c :: rlcAux false rest else rlcAux true rest
  | false, '-' :: '-' :: rest => rlcAux true rest
  | false, c :: rest => c :: rlcAux false rest

/-- The first replace of `normalizeSql`: strip `-- …` line comments. -/
def removeLineComments (l : List Char) : List Char :=
  rlcAux false l

/-- Single-pass form of the second replace of `normalizeSql` (regex
`\/\*[\s\S]*?\*\/`, flag `g`).  Outside a comment (state `none`) characters
pass through and `/*` opens a comment; inside (state `some buf`) characters are
buffered and the first `*/` — the non-greedy close — discards the buffer, while
an unterminated `/*` is emitted verbatim at the end of input, exactly as the
regex leaves an unmatched `/*` in place. -/
def rbcAux : Option (List Char) → List Char → List Char
  | none, [] => []
  | none, '/' :: '*' :: rest => rbcAux (some ['*', '/']) rest
  | none, c :: rest => c :: rbcAux none rest
  | some buf, [] => buf.reverse
  | some _, '*' :: '/' :: rest => rbcAux none rest
  | some buf, c :: rest => rbcAux (some (c :: buf)) rest

/-- The second replace of `normalizeSql`: strip `/* … */` block comments. -/
def removeBlockComments (l : List Char) : List Char :=
  rbcAux none l

/-- Single-pass form of `.replace` with regex `([^;\s])\s*\n\s*([A-Z])` and
replacement pattern `$1; $2` (flag `g`).  `prevOk` records that the character
emitted immediately before the pending whitespace was neither `;` nor
whitespace (the `[^;\s]` capture); `buf` holds the pending whitespace run in
reverse.  When a non-space character arrives: if the `[^;\s]` character was
seen, the run contains a newline and the character is an ASCII capital, the run
is replaced by `"; "` and scanning resumes after the capital (which therefore
cannot serve as the next `[^;\s]`); otherwise the run is flushed unchanged. -/
def nlAux : Bool → List Char → List Char → List Char
  | _, buf, [] => buf.reverse
  | prevOk, buf, c :: rest =>
    if jsSpace c then nlAux prevOk (c :: buf) rest
    else if prevOk ∧ '\n' ∈ buf ∧ isAZ c = true then
      ';' :: ' ' :: c :: nlAux false [] rest
    else buf.reverse ++ c :: nlAux (c ≠ ';') [] rest

/-- The third replace of `normalizeSql`: splice `"; "` at line breaks that look
like statement boundaries. -/
def newlineToSemicolon (l : List Char) : List Char :=
  nlAux false [] l

/-- Single-pass form of `.replace(/\s+/g, ' ')`: every maximal whitespace run
becomes a single space (`inRun` records that the current run already emitted
its space). -/
def cwAux : Bool → List Char → List Char
  | _, [] => []
  | inRun, c :: rest =>
    if jsSpace c then
      if inRun then cwAux true rest else ' ' :: cwAux true rest
    else c :: cwAux false rest

/-- The fourth replace of `normalizeSql`: collapse whitespace runs. -/
def collapseWhitespace (l : List Char) : List Char :=
  cwAux false l

/-- Model of `String.prototype.trim()`: drop leading and trailing whitespace. -/
def trimL (l : List Char) : List Char :=
  ((l.dropWhile jsSpace).reverse.dropWhile jsSpace).reverse

/-- The `normalizeSql` pipeline of `sql-tool.ts` on character lists: strip line
comments, strip block comments, splice semicolons at statement-looking line
breaks, collapse whitespace, trim. -/
def normalizeSqlL (l : List Char) : List Char :=
  trimL (collapseWhitespace (newlineToSemicolon (removeBlockComments (removeLineComments l))))

/-- `normalizeSql` of `sql-tool.ts`. -/
def normalizeSql (s : String) : String :=
  String.mk (normalizeSqlL s.toList)

/-- Model of `String.prototype.split(';')`. -/
def splitSemi : List Char → List (List Char)
  | [] => [[]]
  | c :: rest =>
    if c = ';' then [] :: splitSemi rest
    else
      match splitSemi rest with
      | [] => [[c]]
      | g :: gs => (c :: g) :: gs

/-- `splitSqlStatements` of `sql-tool.ts`: normalize, uppercase, split on `;`,
trim each piece, drop empty pieces. -/
def splitSqlStatements (sql : String) : List String :=
  ((((normalizeSqlL sql.toList).map Char.toUpper |> splitSemi).map trimL).filter
    (fun st => st.length > 0)).map String.mk

/-! The allow-list regexes `ALLOWED_SQL_PATTERNS` and `SELECT_PATTERN`. -/

/-- Word boundary `\b` after a keyword: end of input or a non-word character. -/
def boundaryAfter : List Char → Bool
  | [] => true
  | c :: _ => ! isWordChar c

/-- A pattern of the shape `^\s*KW\b`. -/
def leadKw (kw : List Char) (l : List Char) : Bool :=
  let t := l.dropWhile jsSpace
  kw.isPrefixOf t && boundaryAfter (t.drop kw.length)

/-- A pattern of the shape `^\s*KW1\s+KW2\b`. -/
def leadKw2 (kw1 kw2 : List Char) (l : List Char) : Bool :=
  let t := l.dropWhile jsSpace
  kw1.isPrefixOf t &&
    (let r := t.drop kw1.length
     let ws := r.takeWhile jsSpace
     !ws.isEmpty && kw2.isPrefixOf (r.drop ws.length) &&
       boundaryAfter ((r.drop ws.length).drop kw2.length))

/-- Match of `\bSET\b` exactly at the head of `l`, where `prev` is the
character immediately before `l` in the surrounding text. -/
def setHere (prev : Char) (l : List Char) : Bool :=
  ! isWordChar prev && ("SET".toList).isPrefixOf l && boundaryAfter (l.drop 3)

/-- Search for `.*\bSET\b` starting at `l` (with `prev` the preceding
character): `.` does not match a newline, so the scan stops at `'\n'`. -/
def setSearch : Char → List Char → Bool
  | prev, [] => setHere prev []
  | prev, c :: rest => setHere prev (c :: rest) || (c ≠ '\n' && setSearch c rest)

/-- The pattern `^\s*UPDATE\s+.*\bSET\b`.  The `\s+` may hand any nonempty
prefix of the whitespace run to `.*` on backtracking (this matters only when
the run contains newlines, which `.` cannot cross), so every split point of the
run is tried; the character preceding each start position is whitespace, hence
never a word character, which the stand-in `' '` passed to `setSearch`
records. -/
def updateSetLead (l : List Char) : Bool :=
  let t := l.dropWhile jsSpace
  ("UPDATE".toList).isPrefixOf t &&
    (let r := t.drop 6
     let ws := r.takeWhile jsSpace
     !ws.isEmpty && (List.range ws.length).any (fun k => setSearch ' ' (r.drop (k + 1))))

/-- `ALLOWED_SQL_PATTERNS.some(pattern => pattern.test(statement))`: the four
allow-list patterns `^\s*SELECT\b`, `^\s*INSERT\s+INTO\b`,
`^\s*UPDATE\s+.*\bSET\b`, `^\s*DELETE\s+FROM\b`. -/
def isAllowedStatement (st : String) : Bool :=
  leadKw ("SELECT".toList) st.toList ||
  leadKw2 ("INSERT".toList) ("INTO".toList) st.toList ||
  updateSetLead st.toList ||
  leadKw2 ("DELETE".toList) ("FROM".toList) st.toList

/-- `SELECT_PATTERN.test(statement)`: the pattern `^\s*SELECT\b`. -/
def isSelectStatement (st : String) : Bool :=
  leadKw ("SELECT".toList) st.toList

/-- `statement.trim().split(/\s+/)[0]`: the first whitespace-delimited token. -/
def firstWord (st : String) : String :=
  String.mk ((trimL st.toList).takeWhile (fun c => jsSpace c = false))

/-- The loop body of `getForbiddenOperation`: skip statements that trim to
nothing, skip allowed statements, and return the first word of the first
statement that matches none of the allow-list patterns. -/
def forbiddenLoop : List String → Option String
  | [] => none
  | st :: rest =>
    if trimL st.toList = [] then forbiddenLoop rest
    else if isAllowedStatement st then forbiddenLoop rest
    else some (firstWord st)

/-- `getForbiddenOperation` of `sql-tool.ts`. -/
def getForbiddenOperation (sql : String) : Option String :=
  forbiddenLoop (splitSqlStatements sql)

/-- The loop body of `isUpdateOperation`: any statement that trims to something
and is not a `SELECT` forces confirmation. -/
def updateLoop : List String → Bool
  | [] => false
  | st :: rest =>
    if trimL st.toList = [] then updateLoop rest
    else if isSelectStatement st then updateLoop rest
    else true

/-- `isUpdateOperation` of `sql-tool.ts`. -/
def isUpdateOperation (sql : String) : Bool :=
  updateLoop (splitSqlStatements sql)

/-! `getQueryType`: unanchored searches `\bINSERT\s+INTO\b`,
`\bUPDATE\s+\w+\s+SET\b`, `\bDELETE\s+FROM\b` on the upper-cased normalized
text, with `UPDATE` as the defensive default. -/

/-- Scan every start position of a text, threading the character before the
position (for `\b`); at the very start there is no preceding character, which
the caller records with a non-word stand-in. -/
def scanWithPrev (f : Char → List Char → Bool) : Char → List Char → Bool
  | prev, [] => f prev []
  | prev, c :: rest => f prev (c :: rest) || scanWithPrev f c rest

/-- Match of `\bKW1\s+KW2\b` exactly at the head of `l`. -/
def kwGapKwB (kw1 kw2 : List Char) (prev : Char) (l : List Char) : Bool :=
  ! isWordChar prev && kw1.isPrefixOf l &&
    (let r := l.drop kw1.length
     let ws := r.takeWhile jsSpace
     !ws.isEmpty && kw2.isPrefixOf (r.drop ws.length) &&
       boundaryAfter ((r.drop ws.length).drop kw2.length))

/-- Match of `\bUPDATE\s+\w+\s+SET\b` exactly at the head of `l`. -/
def updateWordSetB (prev : Char) (l : List Char) : Bool :=
  ! isWordChar prev && ("UPDATE".toList).isPrefixOf l &&
    (let r := l.drop 6
     let ws := r.takeWhile jsSpace
     !ws.isEmpty &&
       (let r1 := r.drop ws.length
        let w := r1.takeWhile isWordChar
        !w.isEmpty &&
          (let r2 := r1.drop w.length
           let ws2 := r2.takeWhile jsSpace
           !ws2.isEmpty && ("SET".toList).isPrefixOf (r2.drop ws2.length) &&
             boundaryAfter ((r2.drop ws2.length).drop 3))))

/-- Whether `/\bINSERT\s+INTO\b/` matches the text. -/
def hasInsertInto (n : List Char) : Bool :=
  scanWithPrev (kwGapKwB ("INSERT".toList) ("INTO".toList)) ' ' n

/-- Whether `/\bUPDATE\s+\w+\s+SET\b/` matches the text. -/
def hasUpdateSet (n : List Char) : Bool :=
  scanWithPrev updateWordSetB ' ' n

/-- Whether `/\bDELETE\s+FROM\b/` matches the text. -/
def hasDeleteFrom (n : List Char) : Bool :=
  scanWithPrev (kwGapKwB ("DELETE".toList) ("FROM".toList)) ' ' n

/-- The `normalizeSql(sql).toUpperCase()` step shared by `getQueryType` and
`extractTableNames`. -/
def upperNormalizedText (sql : String) : List Char :=
  (normalizeSqlL sql.toList).map Char.toUpper

/-- `getQueryType` of `sql-tool.ts`. -/
def getQueryType (sql : String) : String :=
  let n := upperNormalizedText sql
  if hasInsertInto n then "INSERT"
  else if hasUpdateSet n then "UPDATE"
  else if hasDeleteFrom n then "DELETE"
  else "UPDATE"

/-! `extractTableNames`: for each of the three statement forms, the identifier
following the keyword, with quote characters stripped and only the last segment
of a dotted name kept, lower-cased, de-duplicated. -/

/-- Opening identifier-quote characters of the class `` [`"[] ``. -/
def quoteOpen (c : Char) : Bool :=
  c = '`' || c = '"' || c = '['

/-- Closing identifier-quote characters of the class `` [`"\]] ``. -/
def quoteClose (c : Char) : Bool :=
  c = '`' || c = '"' || c = ']'

/-- The identifier part `` (?:([`"[]?\w+(?:\.\w+)?[`"\]]?)|(\w+(?:\.\w+)?)) ``
of the extraction regexes at the head of `l`: the first alternative subsumes
the second (all its quote parts are optional), and each optional piece is taken
greedily, so the match is deterministic; `none` when no word character is
available. -/
def matchIdent (l : List Char) : Option (List Char) :=
  let p : List Char × List Char :=
    match l with
    | c :: rest => if quoteOpen c then ([c], rest) else ([], l)
    | [] => ([], l)
  let w := p.2.takeWhile isWordChar
  if w.isEmpty then none
  else
    let l2 := p.2.drop w.length
    let q : List Char × List Char :=
      match l2 with
      | '.' :: r =>
        let w2 := r.takeWhile isWordChar
        if w2.isEmpty then ([], l2) else ('.' :: w2, r.drop w2.length)
      | _ => ([], l2)
    let closeQ : List Char :=
      match q.2 with
      | c :: _ => if quoteClose c then [c] else []
      | [] => []
    some (p.1 ++ w ++ q.1 ++ closeQ)

/-- Match of `KW1\s+KW2\s+⟨identifier⟩` exactly at the head of `l`, returning
the captured identifier. -/
def identAfterKw2 (kw1 kw2 : List Char) (l : List Char) : Option (List Char) :=
  if kw1.isPrefixOf l then
    let r := l.drop kw1.length
    let ws := r.takeWhile jsSpace
    if ws.isEmpty then none
    else
      let r1 := r.drop ws.length
      if kw2.isPrefixOf r1 then
        let r2 := r1.drop kw2.length
        let ws2 := r2.takeWhile jsSpace
        if ws2.isEmpty then none else matchIdent (r2.drop ws2.length)
      else none
  else none

/-- Match of `KW\s+⟨identifier⟩` exactly at the head of `l`, returning the
captured identifier. -/
def identAfterKw1 (kw : List Char) (l : List Char) : Option (List Char) :=
  if kw.isPrefixOf l then
    let r := l.drop kw.length
    let ws := r.takeWhile jsSpace
    if ws.isEmpty then none else matchIdent (r.drop ws.length)
  else none

/-- Leftmost match: try the matcher at each start position from the left, as
`String.prototype.match` with a non-global regex does. -/
def scanFirst (f : List Char → Option (List Char)) : List Char → Option (List Char)
  | [] => f []
  | c :: rest =>
    match f (c :: rest) with
    | some r => some r
    | none => scanFirst f rest

/-- Model of `String.prototype.split('.')`. -/
def splitDot : List Char → List (List Char)
  | [] => [[]]
  | c :: rest =>
    if c = '.' then [] :: splitDot rest
    else
      match splitDot rest with
      | [] => [[c]]
      | g :: gs => (c :: g) :: gs

/-- `normalizeTableName` of `sql-tool.ts`: strip the quote characters, keep the
last dot-separated segment, lower-case. -/
def normalizeTableName (t : List Char) : List Char :=
  let cleaned := t.filter (fun c => !(c = '`' || c = '"' || c = '[' || c = ']'))
  ((splitDot cleaned).getLastD []).map Char.toLower

/-- Worker of the de-duplication, with the set of already-kept names. -/
def dedupAux (seen : List String) : List String → List String
  | [] => []
  | x :: rest =>
    if x ∈ seen then dedupAux seen rest else x :: dedupAux (x :: seen) rest

/-- Model of `[...new Set(tables)]`: de-duplication keeping first occurrences. -/
def dedupFirst (l : List String) : List String :=
  dedupAux [] l

/-- `extractTableNames` of `sql-tool.ts`. -/
def extractTableNames (sql : String) : List String :=
  let n := upperNormalizedText sql
  let insertT := scanFirst (identAfterKw2 ("INSERT".toList) ("INTO".toList)) n
  let updateT := scanFirst (identAfterKw1 ("UPDATE".toList)) n
  let deleteT := scanFirst (identAfterKw2 ("DELETE".toList) ("FROM".toList)) n
  dedupFirst ((insertT.toList ++ updateT.toList ++ deleteT.toList).map
    (fun t => String.mk (normalizeTableName t)))

/-! The token store of `sql-token-store.ts`.  Timestamps are `Nat`
milliseconds; the `Map` is an association list in insertion order. -/

/-- An entry of the token store. -/
structure SqlToken where
  query : String
  createdAt : Nat
  expiresAt : Nat
deriving DecidableEq

/-- The `Map<string, SqlToken>` of the store. -/
abbrev TokenMap := List (String × SqlToken)

/-- `Map.prototype.get`. -/
def mapGet (m : TokenMap) (k : String) : Option SqlToken :=
  match m.find? (fun e => e.1 = k) with
  | some e => some e.2
  | none => none

/-- `Map.prototype.set`: overwrite in place if the key is present, append
otherwise. -/
def mapSet (m : TokenMap) (k : String) (v : SqlToken) : TokenMap :=
  match m with
  | [] => [(k, v)]
  | e :: rest => if e.1 = k then (k, v) :: rest else e :: mapSet rest k v

/-- `Map.prototype.delete`. -/
def mapDelete (m : TokenMap) (k : String) : TokenMap :=
  m.filter (fun e => e.1 ≠ k)

/-- The default `SQL_TOKEN_EXPIRATION_MS`: five minutes. -/
def tokenExpirationMs : Nat := 300000

/-- `SqlTokenStore.store`: bind the query to the token with
`expiresAt = now + tokenExpirationMs`. -/
def storeToken (m : TokenMap) (token query : String) (now : Nat) : TokenMap :=
  mapSet m token { query := query, createdAt := now, expiresAt := now + tokenExpirationMs }

/-- `SqlTokenStore.getAndInvalidate`: absent tokens yield `none`; expired
tokens (`expiresAt < now`) are deleted and yield `none`; live tokens are
deleted and yield the stored query.  Returns the result with the new store. -/
def getAndInvalidate (m : TokenMap) (token : String) (now : Nat) :
    Option String × TokenMap :=
  match mapGet m token with
  | none => (none, m)
  | some data =>
    if data.expiresAt < now then (none, mapDelete m token)
    else (some data.query, mapDelete m token)

/-- `SqlTokenStore.cleanupExpired`: delete every entry with `expiresAt < now`. -/
def cleanupExpired (now : Nat) : TokenMap → TokenMap
  | [] => []
  | e :: rest =>
    if e.2.expiresAt < now then cleanupExpired now rest
    else e :: cleanupExpired now rest

/-- `SqlTokenStore.getActiveTokenCount`: run `cleanupExpired`, then return the
number of remaining entries (with the mutated store). -/
def getActiveTokenCount (m : TokenMap) (now : Nat) : Nat × TokenMap :=
  let m2 := cleanupExpired now m
  (m2.length, m2)

/-! The database collaborator and the two execution paths. -/

/-- The `lastInsertRowid` a libsql result may carry: a JS `bigint`, a plain
number, a string, or null/undefined. -/
inductive Rowid where
  | big (v : Int)
  | num (v : Int)
  | str (s : String)
  | nil
deriving DecidableEq

/-- Result of `DatabaseManager.execute`. -/
structure DbResult where
  rows : List (List String)
  columns : List String
  rowsAffected : Nat
  lastInsertRowid : Rowid
deriving DecidableEq

/-- `Number.MAX_SAFE_INTEGER`. -/
def maxSafeInteger : Int := 9007199254740991

/-- `Number.MIN_SAFE_INTEGER`, the lower end of the safe integer range. -/
def minSafeInteger : Int := -9007199254740991

/-- The `safeLastInsertRowid` conversion of `sql-executor.ts` (duplicated in
`api/sql-execute.ts`): a `bigint` is turned into a plain number when
`lastInsertRowid <= Number.MAX_SAFE_INTEGER` and into its decimal string
otherwise; every non-`bigint` value passes through unchanged. -/
def safeLastInsertRowid : Rowid → Rowid
  | .big v => if v ≤ maxSafeInteger then .num v else .str (toString v)
  | r => r

/-- Outcome of the Propose operation `runSQL`. -/
inductive RunOutcome where
  | forbidden (keyword : String)
  | needsConfirmation (token query queryType : String) (tables : List String)
  | success (res : DbResult)
deriving DecidableEq

/-- `runSQL` of `sql-tool.ts` (the Propose operation).  `freshToken` stands for
the value `sqlTokenStore.generateToken()` returns, `now` for the current time,
`db` for the database collaborator.  The third component of the result is the
log of queries passed to `DatabaseManager.execute` while handling this
submission. -/
def runSQL (sql freshToken : String) (now : Nat) (m : TokenMap)
    (db : String → DbResult) : RunOutcome × TokenMap × List String :=
  match getForbiddenOperation sql with
  | some kw => (.forbidden kw, m, [])
  | none =>
    if isUpdateOperation sql then
      (.needsConfirmation freshToken sql (getQueryType sql) (extractTableNames sql),
        storeToken m freshToken sql now, [])
    else
      (.success (db sql), m, [sql])

/-- Outcome of `executeSqlWithToken`. -/
inductive ExecOutcome where
  | execError (error : String)
  | execOk (query : String) (rowsAffected : Nat) (lastInsertRowid : Rowid)
      (columns : List String) (rows : List (List String))
deriving DecidableEq

/-- `executeSqlWithToken` of `sql-executor.ts` (the ConfirmAndExecute
operation): redeem the token, and on success execute the stored query and
return its result with the converted `lastInsertRowid`.  The third component is
the log of queries passed to `DatabaseManager.execute`. -/
def executeSqlWithToken (token : String) (now : Nat) (m : TokenMap)
    (db : String → DbResult) : ExecOutcome × TokenMap × List String :=
  match getAndInvalidate m token now with
  | (none, m2) => (.execError "Invalid or expired confirmation token", m2, [])
  | (some query, m2) =>
    let r := db query
    (.execOk query r.rowsAffected (safeLastInsertRowid r.lastInsertRowid)
      r.columns r.rows, m2, [query])

/-- A trivial database collaborator, used to instantiate closed statements. -/
def trivialDb : String → DbResult :=
  fun _ => { rows := [], columns := [], rowsAffected := 0, lastInsertRowid := .nil }

/-! Operations of the token store as a trace alphabet, for the single-use
invariant of `getAndInvalidate`. -/

/-- One call into the public mutating interface of the token store. -/
inductive StoreOp where
  | opStore (token query : String) (now : Nat)
  | opGet (token : String) (now : Nat)
  | opCleanup (now : Nat)

/-- Effect of one store operation on the map. -/
def applyOp (m : TokenMap) : StoreOp → TokenMap
  | .opStore t q now => storeToken m t q now
  | .opGet t now => (getAndInvalidate m t now).2
  | .opCleanup now => cleanupExpired now m

/-- Effect of a sequence of store operations. -/
def applyOps (m : TokenMap) : List StoreOp → TokenMap
  | [] => m
  | op :: ops => applyOps (applyOp m op) ops

/-- An operation that does not store under token `t`. -/
def notStoring (t : String) : StoreOp → Prop
  | .opStore t2 _ _ => t2 ≠ t
  | _ => True

/-- Absence of a token from the store. -/
def absentToken (t : String) (m : TokenMap) : Prop :=
  ∀ e ∈ m, e.1 ≠ t

/-! Recognizer for the inputs of the comment-only claim: whitespace, `--` line
comments, and `/* … */` block comments whose bodies contain no `--`. -/

/-- Mode of the comment-only recognizer: outside any comment, just after a
first `-` or `/` outside, inside a `--` line comment, inside a `/* … */` block
comment, or inside a block just after a `*` or a `-`. -/
inductive CoMode where
  | outside
  | dash1
  | slash1
  | inLine
  | inBlock
  | blockStar
  | blockDash
deriving DecidableEq

/-- Recognizer automaton for comment-only inputs, one character per step.
Outside comments only whitespace, `--` (opening a line comment) and `/*`
(opening a block comment) are allowed; a line comment runs to the next line
terminator; a block comment must reach its `*/` and must not contain `--`
(which the line-comment pass, running first, would truncate). -/
def commentOnlyAux : CoMode → List Char → Bool
  | .outside, [] => true
  | .outside, c :: rest =>
    if jsSpace c then commentOnlyAux .outside rest
    else if c = '-' then commentOnlyAux .dash1 rest
    else if c = '/' then commentOnlyAux .slash1 rest
    else false
  | .dash1, [] => false
  | .dash1, c :: rest => if c = '-' then commentOnlyAux .inLine rest else false
  | .slash1, [] => false
  | .slash1, c :: rest => if c = '*' then commentOnlyAux .inBlock rest else false
  | .inLine, [] => true
  | .inLine, c :: rest =>
    if isLineTerm c then commentOnlyAux .outside rest
    else commentOnlyAux .inLine rest
  | .inBlock, [] => false
  | .inBlock, c :: rest =>
    if c = '*' then commentOnlyAux .blockStar rest
    else if c = '-' then commentOnlyAux .blockDash rest
    else commentOnlyAux .inBlock rest
  | .blockStar, [] => false
  | .blockStar, c :: rest =>
    if c = '/' then commentOnlyAux .outside rest
    else if c = '*' then commentOnlyAux .blockStar rest
    else if c = '-' then commentOnlyAux .blockDash rest
    else commentOnlyAux .inBlock rest
  | .blockDash, [] => false
  | .blockDash, c :: rest =>
    if c = '-' then false
    else if c = '*' then commentOnlyAux .blockStar rest
    else commentOnlyAux .inBlock rest

/-- Raw inputs consisting only of whitespace, `--` line comments, and complete
`/* … */` block comments that contain no `--`. -/
def commentOnly (l : List Char) : Bool :=
  commentOnlyAux .outside l

/-! Shared list lemmas. -/

theorem length_dropWhile_le (p : Char → Bool) (l : List Char) :
    (l.dropWhile p).length ≤ l.length := by
  induction l with
  | nil => simp
  | cons a t ih =>
    rw [List.dropWhile_cons]
    split
    · exact Nat.le_succ_of_le ih
    · exact Nat.le_refl _

theorem head?_dropWhile (p : Char → Bool) (l : List Char) (c : Char)
    (h : (l.dropWhile p).head? = some c) : p c = false := by
  induction l with
  | nil => simp at h
  | cons a t ih =>
    rw [List.dropWhile_cons] at h
    split at h
    · exact ih h
    · simp at h
      subst h
      simp_all

theorem dropWhile_of_head_false (p : Char → Bool) (l : List Char) (c : Char)
    (hc : l.head? = some c) (hp : p c = false) : l.dropWhile p = l := by
  cases l with
  | nil => rfl
  | cons a t =>
    simp at hc
    subst hc
    rw [List.dropWhile_cons, hp]
    simp

theorem dropWhile_dropWhile (p : Char → Bool) (l : List Char) :
    (l.dropWhile p).dropWhile p = l.dropWhile p := by
  cases h : l.dropWhile p with
  | nil => rfl
  | cons c t =>
    have hc : p c = false := head?_dropWhile p l c (by rw [h]; rfl)
    rw [List.dropWhile_cons, hc]
    simp

theorem trimL_idem (l : List Char) : trimL (trimL l) = trimL l := by
  unfold trimL
  cases hBe : ((l.dropWhile jsSpace).reverse.dropWhile jsSpace).reverse.head? with
  | none =>
    have hnil : ((l.dropWhile jsSpace).reverse.dropWhile jsSpace).reverse = [] := by
      cases hx : ((l.dropWhile jsSpace).reverse.dropWhile jsSpace).reverse
      · rfl
      · rw [hx] at hBe; simp at hBe
    rw [hnil]
    rfl
  | some c =>
    have hgl : ((l.dropWhile jsSpace).reverse.dropWhile jsSpace).getLast? = some c := by
      rw [← List.head?_reverse]; exact hBe
    obtain ⟨t, ht⟩ := List.dropWhile_suffix (l := (l.dropWhile jsSpace).reverse) jsSpace
    have h1 : (l.dropWhile jsSpace).reverse.getLast? = some c := by
      rw [← ht, List.getLast?_append, hgl]
      rfl
    have h2 : (l.dropWhile jsSpace).head? = some c := by
      rw [← List.getLast?_reverse]; exact h1
    have h3 : jsSpace c = false := head?_dropWhile jsSpace l c h2
    rw [dropWhile_of_head_false jsSpace _ c hBe h3, List.reverse_reverse,
      dropWhile_dropWhile]

theorem trimL_head_false (l : List Char) (c : Char)
    (h : (trimL l).head? = some c) : jsSpace c = false := by
  unfold trimL at h
  rw [List.head?_reverse] at h
  obtain ⟨t, ht⟩ := List.dropWhile_suffix (l := (l.dropWhile jsSpace).reverse) jsSpace
  have h1 : (l.dropWhile jsSpace).reverse.getLast? = some c := by
    rw [← ht, List.getLast?_append, h]
    rfl
  have h2 : (l.dropWhile jsSpace).head? = some c := by
    rw [← List.getLast?_reverse]; exact h1
  exact head?_dropWhile jsSpace l c h2

theorem toList_mk (l : List Char) : (String.mk l).toList = l := rfl

/-- Every member of `splitSqlStatements sql` is nonempty and trim-invariant. -/
theorem mem_splitSqlStatements (sql : String) (st : String)
    (h : st ∈ splitSqlStatements sql) :
    st.toList ≠ [] ∧ trimL st.toList = st.toList := by
  unfold splitSqlStatements at h
  rw [List.mem_map] at h
  obtain ⟨ls, hls, hst⟩ := h
  rw [List.mem_filter] at hls
  obtain ⟨hmem, hlen⟩ := hls
  rw [List.mem_map] at hmem
  obtain ⟨piece, _, hpiece⟩ := hmem
  subst hst
  constructor
  · intro hnil
    rw [toList_mk] at hnil
    subst hnil
    simp at hlen
  · rw [toList_mk, ← hpiece, trimL_idem]

/-! Lemmas about the token store map. -/

theorem mapGet_eq_none_iff (m : TokenMap) (k : String) :
    mapGet m k = none ↔ ∀ e ∈ m, e.1 ≠ k := by
  unfold mapGet
  cases h : m.find? (fun e => e.1 = k) with
  | none =>
    simp only [true_iff]
    rw [List.find?_eq_none] at h
    intro e he
    have := h e he
    simpa using this
  | some e =>
    constructor
    · intro hc
      exact Option.noConfusion hc
    · intro hall
      exfalso
      have h1 := List.find?_some h
      have h2 := List.mem_of_find?_eq_some h
      simp at h1
      exact hall e h2 h1

theorem mapGet_mapSet_self (m : TokenMap) (k : String) (v : SqlToken) :
    mapGet (mapSet m k v) k = some v := by
  induction m with
  | nil => simp [mapSet, mapGet, List.find?]
  | cons e rest ih =>
    rw [mapSet]
    split
    · simp [mapGet, List.find?]
    · rename_i hne
      unfold mapGet at ih ⊢
      rw [List.find?]
      have : (fun e2 => decide (e2.1 = k)) e = false := by simpa using hne
      simp only [this]
      exact ih

theorem absent_mapDelete (m : TokenMap) (k : String) :
    ∀ e ∈ mapDelete m k, e.1 ≠ k := by
  intro e he
  unfold mapDelete at he
  rw [List.mem_filter] at he
  simpa using he.2

theorem mem_of_mem_mapDelete (m : TokenMap) (k : String) :
    ∀ e ∈ mapDelete m k, e ∈ m := by
  intro e he
  unfold mapDelete at he
  exact (List.mem_filter.mp he).1

theorem mem_of_mem_mapSet (m : TokenMap) (k : String) (v : SqlToken) :
    ∀ e ∈ mapSet m k v, e ∈ m ∨ e = (k, v) := by
  induction m with
  | nil => intro e he; simp [mapSet] at he; simp [he]
  | cons e2 rest ih =>
    intro e he
    rw [mapSet] at he
    split at he
    · rcases List.mem_cons.mp he with h | h
      · right; exact h
      · left; exact List.mem_cons_of_mem _ h
    · rcases List.mem_cons.mp he with h | h
      · left; rw [h]; exact List.mem_cons_self _ _
      · rcases ih e h with h2 | h2
        · left; exact List.mem_cons_of_mem _ h2
        · right; exact h2

theorem mem_of_mem_cleanupExpired (now : Nat) (m : TokenMap) :
    ∀ e ∈ cleanupExpired now m, e ∈ m := by
  induction m with
  | nil => intro e he; simp [cleanupExpired] at he
  | cons e2 rest ih =>
    intro e he
    rw [cleanupExpired] at he
    split at he
    · exact List.mem_cons_of_mem _ (ih e he)
    · rcases List.mem_cons.mp he with h | h
      · rw [h]; exact List.mem_cons_self _ _
      · exact List.mem_cons_of_mem _ (ih e h)

theorem absent_applyOp (t : String) (m : TokenMap) (op : StoreOp)
    (h : absentToken t m) (hop : notStoring t op) :
    absentToken t (applyOp m op) := by
  cases op with
  | opStore t2 q now =>
    intro e he
    rcases mem_of_mem_mapSet m t2 _ e he with h2 | h2
    · exact h e h2
    · rw [h2]
      exact hop
  | opGet t2 now =>
    intro e he
    simp only [applyOp] at he
    unfold getAndInvalidate at he
    rcases hg : mapGet m t2 with _ | data <;> simp only [hg] at he
    · exact h e he
    · split at he <;> exact h e (mem_of_mem_mapDelete m t2 e he)
  | opCleanup now =>
    intro e he
    exact h e (mem_of_mem_cleanupExpired now m e he)

theorem absent_applyOps (t : String) (m : TokenMap) (ops : List StoreOp)
    (h : absentToken t m) (hops : ∀ op ∈ ops, notStoring t op) :
    absentToken t (applyOps m ops) := by
  induction ops generalizing m with
  | nil => exact h
  | cons op rest ih =>
    rw [applyOps]
    exact ih _ (absent_applyOp t m op h (hops op (List.mem_cons_self _ _)))
      (fun op2 h2 => hops op2 (List.mem_cons_of_mem _ h2))

theorem getAndInvalidate_absent (m : TokenMap) (t : String) (now : Nat)
    (h : absentToken t m) : getAndInvalidate m t now = (none, m) := by
  unfold getAndInvalidate
  rw [(mapGet_eq_none_iff m t).mpr h]

/-- C2.  `getAndInvalidate` of the token store: an absent token yields `null`
and leaves the store unchanged; a present but expired token is deleted and
yields `null`; a present live token is deleted and its query is returned.  A
token whose value was once successfully returned stays absent under any later
operations that do not store it again, so no later `getAndInvalidate` can ever
return a value for it; expired and absent tokens both produce the same `null`
result. -/
theorem c2_get_and_invalidate_single_use :
    (∀ (m : TokenMap) (t : String) (now : Nat), mapGet m t = none →
        getAndInvalidate m t now = (none, m)) ∧
    (∀ (m : TokenMap) (t : String) (now : Nat) (d : SqlToken), mapGet m t = some d →
        d.expiresAt < now → getAndInvalidate m t now = (none, mapDelete m t)) ∧
    (∀ (m : TokenMap) (t : String) (now : Nat) (d : SqlToken), mapGet m t = some d →
        ¬ d.expiresAt < now →
        getAndInvalidate m t now = (some d.query, mapDelete m t)) ∧
    (∀ (m : TokenMap) (t : String) (now : Nat) (q : String) (m2 : TokenMap),
        getAndInvalidate m t now = (some q, m2) →
        ∀ (ops : List StoreOp), (∀ op ∈ ops, notStoring t op) →
          ∀ (now2 : Nat),
            getAndInvalidate (applyOps m2 ops) t now2 = (none, applyOps m2 ops)) := by
  refine ⟨?_, ?_, ?_, ?_⟩
  · intro m t now h
    unfold getAndInvalidate
    rw [h]
  · intro m t now d h hexp
    unfold getAndInvalidate
    rw [h]
    simp [hexp]
  · intro m t now d h hexp
    unfold getAndInvalidate
    rw [h]
    simp [hexp]
  · intro m t now q m2 h ops hops now2
    have habs : absentToken t m2 := by
      unfold getAndInvalidate at h
      rcases hg : mapGet m t with _ | data <;> simp only [hg] at h
      · simp at h
      · split at h
        · simp at h
        · have hm2 := congrArg Prod.snd h
          simp only at hm2
          rw [← hm2]
          exact absent_mapDelete m t
    exact getAndInvalidate_absent _ t now2 (absent_applyOps t m2 ops habs hops)

/-- C2 witness: a concrete store; redeeming the token succeeds once, and after
a later store of another token plus a cleanup, redeeming it again yields
`null`. -/
theorem c2_get_and_invalidate_single_use_witness :
    getAndInvalidate
      (applyOps
        (getAndInvalidate [("t1", ⟨"UPDATE users SET a=1", 0, 300000⟩)] "t1" 10).2
        [StoreOp.opStore "t2" "DELETE FROM logs" 20, StoreOp.opCleanup 30])
      "t1" 40 =
      (none,
        applyOps
          (getAndInvalidate [("t1", ⟨"UPDATE users SET a=1", 0, 300000⟩)] "t1" 10).2
          [StoreOp.opStore "t2" "DELETE FROM logs" 20, StoreOp.opCleanup 30]) := by
  exact c2_get_and_invalidate_single_use.2.2.2
    [("t1", ⟨"UPDATE users SET a=1", 0, 300000⟩)] "t1" 10 "UPDATE users SET a=1" []
    (by rfl)
    [StoreOp.opStore "t2" "DELETE FROM logs" 20, StoreOp.opCleanup 30]
    (by
      intro op hop
      rcases List.mem_cons.mp hop with h | h
      · rw [h]; simp [notStoring]
      · rcases List.mem_cons.mp h with h2 | h2
        · rw [h2]; simp [notStoring]
        · simp at h2)
    40

/-- C8.  `cleanupExpired` keeps exactly the entries whose `expiresAt` has not
passed, each entry unchanged (the result is a sublist of the store), and
`getActiveTokenCount` returns the number of stored entries that are not
expired. -/
theorem c8_cleanup_exact_and_count :
    (∀ (now : Nat) (m : TokenMap) (e : String × SqlToken),
        e ∈ cleanupExpired now m ↔ e ∈ m ∧ ¬ e.2.expiresAt < now) ∧
    (∀ (now : Nat) (m : TokenMap), List.Sublist (cleanupExpired now m) m) ∧
    (∀ (now : Nat) (m : TokenMap),
        (getActiveTokenCount m now).1 =
          m.countP (fun e => !decide (e.2.expiresAt < now))) := by
  have hmem : ∀ (now : Nat) (m : TokenMap) (e : String × SqlToken),
      e ∈ cleanupExpired now m ↔ e ∈ m ∧ ¬ e.2.expiresAt < now := by
    intro now m e
    induction m with
    | nil => simp [cleanupExpired]
    | cons e2 rest ih =>
      rw [cleanupExpired]
      split
      · rw [ih]
        constructor
        · intro ⟨h1, h2⟩
          exact ⟨List.mem_cons_of_mem _ h1, h2⟩
        · intro ⟨h1, h2⟩
          rcases List.mem_cons.mp h1 with h3 | h3
          · subst h3; exact absurd (by assumption) h2
          · exact ⟨h3, h2⟩
      · constructor
        · intro h1
          rcases List.mem_cons.mp h1 with h3 | h3
          · subst h3
            exact ⟨List.mem_cons_self _ _, by assumption⟩
          · have := (ih).mp h3
            exact ⟨List.mem_cons_of_mem _ this.1, this.2⟩
        · intro ⟨h1, h2⟩
          rcases List.mem_cons.mp h1 with h3 | h3
          · subst h3; exact List.mem_cons_self _ _
          · exact List.mem_cons_of_mem _ ((ih).mpr ⟨h3, h2⟩)
  refine ⟨hmem, ?_, ?_⟩
  · intro now m
    induction m with
    | nil => simp [cleanupExpired]
    | cons e2 rest ih =>
      rw [cleanupExpired]
      split
      · exact List.Sublist.cons e2 ih
      · exact List.Sublist.cons₂ e2 ih
  · intro now m
    have hlen : ∀ (m2 : TokenMap), (cleanupExpired now m2).length =
        m2.countP (fun e => !decide (e.2.expiresAt < now)) := by
      intro m2
      induction m2 with
      | nil => simp [cleanupExpired]
      | cons e2 rest ih =>
        rw [cleanupExpired, List.countP_cons]
        split
        · rename_i hexp
          simp [hexp, ih]
        · rename_i hexp
          simp [hexp, ih]
    simpa [getActiveTokenCount] using hlen m

/-- C5.  The `lastInsertRowid` conversion misses the lower end of the safe
integer range: the code converts any `bigint` at most `MAX_SAFE_INTEGER` to a
plain number, including values strictly below `MIN_SAFE_INTEGER`, where the
claimed conversion would have to produce the decimal string; above
`MAX_SAFE_INTEGER` the string branch is taken as claimed, and non-`bigint`
values pass through. -/
theorem c5_safe_rowid_missing_lower_bound :
    safeLastInsertRowid (.big (-9007199254740993)) = .num (-9007199254740993) ∧
    (-9007199254740993 : Int) < minSafeInteger ∧
    safeLastInsertRowid (.big 9007199254740993) = .str "9007199254740993" ∧
    safeLastInsertRowid (.num 7) = .num 7 ∧
    safeLastInsertRowid .nil = .nil := by
  refine ⟨?_, by decide, ?_, rfl, rfl⟩
  · rw [safeLastInsertRowid]
    norm_num [maxSafeInteger]
  · rw [safeLastInsertRowid]
    norm_num [maxSafeInteger]
    rfl

/-! Lemmas connecting the classification loops with first-match and any. -/

theorem forbiddenLoop_eq_find (L : List String)
    (hL : ∀ st ∈ L, trimL st.toList ≠ []) :
    forbiddenLoop L = (L.find? (fun st => !isAllowedStatement st)).map firstWord := by
  induction L with
  | nil => rfl
  | cons st rest ih =>
    rw [forbiddenLoop, if_neg (hL st (List.mem_cons_self _ _))]
    have ih2 := ih (fun s2 h2 => hL s2 (List.mem_cons_of_mem _ h2))
    cases hA : isAllowedStatement st with
    | true => simp [hA, List.find?_cons, ih2]
    | false => simp [hA, List.find?_cons]

theorem updateLoop_eq_any (L : List String)
    (hL : ∀ st ∈ L, trimL st.toList ≠ []) :
    updateLoop L = L.any (fun st => !isSelectStatement st) := by
  induction L with
  | nil => rfl
  | cons st rest ih =>
    rw [updateLoop, if_neg (hL st (List.mem_cons_self _ _))]
    have ih2 := ih (fun s2 h2 => hL s2 (List.mem_cons_of_mem _ h2))
    cases hS : isSelectStatement st with
    | true => simp [hS, ih2]
    | false => simp [hS]

theorem mem_split_trim_ne_nil (sql : String) :
    ∀ st ∈ splitSqlStatements sql, trimL st.toList ≠ [] := by
  intro st h
  have h2 := mem_splitSqlStatements sql st h
  rw [h2.2]
  exact h2.1

theorem allowed_of_select (st : String) (h : isSelectStatement st = true) :
    isAllowedStatement st = true := by
  unfold isAllowedStatement
  unfold isSelectStatement at h
  rw [h]
  rfl

/-- C1.  When some split, non-empty statement matches none of the allow-list
patterns, Propose reports the first whitespace-delimited token of the first
such statement as forbidden, leaves the token store unchanged, and never
invokes the database collaborator (the execution log stays empty). -/
theorem c1_propose_forbidden (sql freshToken : String) (now : Nat) (m : TokenMap)
    (db : String → DbResult) (st : String)
    (h : (splitSqlStatements sql).find? (fun s2 => !isAllowedStatement s2) = some st) :
    runSQL sql freshToken now m db = (.forbidden (firstWord st), m, []) := by
  have hf : getForbiddenOperation sql = some (firstWord st) := by
    unfold getForbiddenOperation
    rw [forbiddenLoop_eq_find _ (mem_split_trim_ne_nil sql), h]
    rfl
  unfold runSQL
  rw [hf]

/-- C1 witness: a DDL statement is rejected with its leading keyword and the
database collaborator log stays empty. -/
theorem c1_propose_forbidden_witness :
    runSQL "DROP TABLE users" "tok" 0 [] trivialDb =
      (.forbidden "DROP", [], []) :=
  c1_propose_forbidden "DROP TABLE users" "tok" 0 [] trivialDb
    "DROP TABLE USERS" (by decide)

/-- C4.  A submission whose split statements all match the SELECT pattern is
executed immediately against the database collaborator (log `[sql]`) with the
token store unchanged, and `isUpdateOperation` is true exactly when some split
statement does not match the SELECT pattern. -/
theorem c4_select_only_immediate (sql freshToken : String) (now : Nat)
    (m : TokenMap) (db : String → DbResult)
    (hall : ∀ st ∈ splitSqlStatements sql, isSelectStatement st = true) :
    runSQL sql freshToken now m db = (.success (db sql), m, [sql]) ∧
    (∀ sql2 : String, isUpdateOperation sql2 = true ↔
      ∃ st ∈ splitSqlStatements sql2, isSelectStatement st = false) := by
  constructor
  · have hforb : getForbiddenOperation sql = none := by
      unfold getForbiddenOperation
      rw [forbiddenLoop_eq_find _ (mem_split_trim_ne_nil sql)]
      have hnone : (splitSqlStatements sql).find?
          (fun s2 => !isAllowedStatement s2) = none := by
        rw [List.find?_eq_none]
        intro x hx
        simp [allowed_of_select x (hall x hx)]
      rw [hnone]
      rfl
    have hupd : isUpdateOperation sql = false := by
      unfold isUpdateOperation
      rw [updateLoop_eq_any _ (mem_split_trim_ne_nil sql)]
      rw [Bool.eq_false_iff]
      intro hc
      rw [List.any_eq_true] at hc
      obtain ⟨x, hx, hpx⟩ := hc
      rw [hall x hx] at hpx
      simp at hpx
    unfold runSQL
    rw [hforb]
    simp [hupd]
  · intro sql2
    unfold isUpdateOperation
    rw [updateLoop_eq_any _ (mem_split_trim_ne_nil sql2), List.any_eq_true]
    constructor
    · intro ⟨x, hx, hpx⟩
      exact ⟨x, hx, by simpa using hpx⟩
    · intro ⟨x, hx, hpx⟩
      exact ⟨x, hx, by simp [hpx]⟩

/-- C4 witness: a two-SELECT submission runs immediately with no token stored,
and a DELETE statement makes `isUpdateOperation` true. -/
theorem c4_select_only_immediate_witness :
    runSQL "SELECT * FROM users; SELECT 1" "tok" 0 [] trivialDb =
      (.success (trivialDb "SELECT * FROM users; SELECT 1"), [],
        ["SELECT * FROM users; SELECT 1"]) ∧
    isUpdateOperation "DELETE FROM logs WHERE id=1" = true := by
  have h := c4_select_only_immediate "SELECT * FROM users; SELECT 1" "tok" 0 []
    trivialDb (by decide)
  exact ⟨h.1, (h.2 "DELETE FROM logs WHERE id=1").mpr
    ⟨"DELETE FROM LOGS WHERE ID=1", by decide, by decide⟩⟩

/-- C3.  A mutating, non-forbidden submission makes Propose store the original
unsplit text under the fresh token (with five-minute expiry), return
needs-confirmation with the estimated impact, and leave the database
collaborator uninvoked; redeeming that token before expiry hands exactly the
original submitted string to the database collaborator and succeeds. -/
theorem c3_propose_confirm_roundtrip (sql freshToken : String) (now now2 : Nat)
    (m : TokenMap) (db : String → DbResult)
    (hForb : getForbiddenOperation sql = none)
    (hMut : isUpdateOperation sql = true)
    (hTime : ¬ now + tokenExpirationMs < now2) :
    runSQL sql freshToken now m db =
      (.needsConfirmation freshToken sql (getQueryType sql) (extractTableNames sql),
        storeToken m freshToken sql now, []) ∧
    mapGet (storeToken m freshToken sql now) freshToken =
      some { query := sql, createdAt := now, expiresAt := now + tokenExpirationMs } ∧
    executeSqlWithToken freshToken now2 (storeToken m freshToken sql now) db =
      (.execOk sql (db sql).rowsAffected (safeLastInsertRowid (db sql).lastInsertRowid)
        (db sql).columns (db sql).rows,
        mapDelete (storeToken m freshToken sql now) freshToken, [sql]) := by
  have hget : mapGet (storeToken m freshToken sql now) freshToken =
      some { query := sql, createdAt := now, expiresAt := now + tokenExpirationMs } :=
    mapGet_mapSet_self m freshToken _
  have hgi : getAndInvalidate (storeToken m freshToken sql now) freshToken now2 =
      (some sql, mapDelete (storeToken m freshToken sql now) freshToken) := by
    unfold getAndInvalidate
    simp only [hget]
    rw [if_neg hTime]
  refine ⟨?_, hget, ?_⟩
  · unfold runSQL
    rw [hForb]
    simp [hMut]
  · unfold executeSqlWithToken
    rw [hgi]

/-- C3 witness: a concrete INSERT round trip through Propose and
ConfirmAndExecute. -/
theorem c3_propose_confirm_roundtrip_witness :
    runSQL "INSERT INTO users (name) VALUES ('x')" "tok" 0 [] trivialDb =
      (.needsConfirmation "tok" "INSERT INTO users (name) VALUES ('x')"
          "INSERT" ["users"],
        [("tok", ⟨"INSERT INTO users (name) VALUES ('x')", 0, 300000⟩)], []) ∧
    executeSqlWithToken "tok" 1000
        [("tok", ⟨"INSERT INTO users (name) VALUES ('x')", 0, 300000⟩)] trivialDb =
      (.execOk "INSERT INTO users (name) VALUES ('x')" 0 .nil [] [], [],
        ["INSERT INTO users (name) VALUES ('x')"]) := by
  have h := c3_propose_confirm_roundtrip "INSERT INTO users (name) VALUES ('x')"
    "tok" 0 1000 [] trivialDb (by decide) (by decide) (by decide)
  exact ⟨h.1, h.2.2⟩

/-- C6.  `getQueryType` classifies by marker priority `INSERT INTO` over
`UPDATE … SET` over `DELETE FROM` on the upper-cased normalized text, and falls
back to `UPDATE` when none of the three markers occurs. -/
theorem c6_query_type_priority (sql : String) :
    (hasInsertInto (upperNormalizedText sql) = true →
      getQueryType sql = "INSERT") ∧
    (hasInsertInto (upperNormalizedText sql) = false →
      hasUpdateSet (upperNormalizedText sql) = true →
      getQueryType sql = "UPDATE") ∧
    (hasInsertInto (upperNormalizedText sql) = false →
      hasUpdateSet (upperNormalizedText sql) = false →
      hasDeleteFrom (upperNormalizedText sql) = true →
      getQueryType sql = "DELETE") ∧
    (hasInsertInto (upperNormalizedText sql) = false →
      hasUpdateSet (upperNormalizedText sql) = false →
      hasDeleteFrom (upperNormalizedText sql) = false →
      getQueryType sql = "UPDATE") := by
  unfold getQueryType
  refine ⟨fun h1 => ?_, fun h1 h2 => ?_, fun h1 h2 h3 => ?_, fun h1 h2 h3 => ?_⟩
  · simp [h1]
  · simp [h1, h2]
  · simp [h1, h2, h3]
  · simp [h1, h2, h3]

/-- C6 witness: a text with none of the three markers falls back to `UPDATE`,
and an INSERT INTO text is classified `INSERT`. -/
theorem c6_query_type_priority_witness :
    getQueryType "TRUNCATE logs" = "UPDATE" ∧
    getQueryType "INSERT INTO t (a) VALUES (1)" = "INSERT" :=
  ⟨(c6_query_type_priority "TRUNCATE logs").2.2.2 (by decide) (by decide) (by decide),
    (c6_query_type_priority "INSERT INTO t (a) VALUES (1)").1 (by decide)⟩

/-- C7.  Comment removal precedes classification: a line comment and a block
comment are stripped by `normalizeSql`, and a forbidden keyword preceded only
by a block comment is still detected, so Propose reports `CREATE` forbidden
without invoking the database collaborator. -/
theorem c7_comment_stripping_precedes_classification :
    normalizeSql "/* comment */ CREATE TABLE t (id INT)" = "CREATE TABLE t (id INT)" ∧
    normalizeSql "-- note\nSELECT 1" = "SELECT 1" ∧
    runSQL "/* comment */ CREATE TABLE t (id INT)" "tok" 0 [] trivialDb =
      (.forbidden "CREATE", [], []) :=
  ⟨by decide, by decide, by decide⟩

/-! Character-level facts for the extracted table names. -/

theorem char_le_iff (a c : Char) : (a ≤ c) ↔ a.toNat ≤ c.toNat := by
  rw [Char.le_def, UInt32.le_def, BitVec.le_def]
  exact Iff.rfl

theorem isAZ_iff (c : Char) : isAZ c = true ↔ 65 ≤ c.toNat ∧ c.toNat ≤ 90 := by
  rw [isAZ, Bool.and_eq_true, decide_eq_true_iff, decide_eq_true_iff,
    char_le_iff, char_le_iff]
  exact Iff.rfl

theorem isAZ_toLower (c : Char) : isAZ c.toLower = false := by
  rw [Char.toLower]
  split
  · rename_i h
    obtain ⟨h1, h2⟩ := h
    have hv : Nat.isValidChar (c.toNat + 32) := by left; omega
    have hval : (Char.ofNat (c.toNat + 32)).toNat = c.toNat + 32 := by
      rw [Char.ofNat, dif_pos hv, Char.ofNatAux]
      simp [Char.toNat, UInt32.toNat, BitVec.toNat_ofNatLt]
    rw [Bool.eq_false_iff]
    intro hc
    rw [isAZ_iff, hval] at hc
    omega
  · rename_i h
    rw [Bool.eq_false_iff]
    intro hc
    rw [isAZ_iff] at hc
    omega

theorem mem_dedupAux_not_seen (seen l : List String) (x : String)
    (h : x ∈ dedupAux seen l) : x ∉ seen := by
  induction l generalizing seen with
  | nil => simp [dedupAux] at h
  | cons y rest ih =>
    rw [dedupAux] at h
    split at h
    · exact ih seen h
    · rcases List.mem_cons.mp h with h2 | h2
      · subst h2; assumption
      · have h3 := ih (y :: seen) h2
        intro hc
        exact h3 (List.mem_cons_of_mem _ hc)

theorem dedupAux_nodup (seen l : List String) : (dedupAux seen l).Nodup := by
  induction l generalizing seen with
  | nil => simp [dedupAux]
  | cons y rest ih =>
    rw [dedupAux]
    split
    · exact ih seen
    · rw [List.nodup_cons]
      refine ⟨fun hc => ?_, ih (y :: seen)⟩
      exact (mem_dedupAux_not_seen _ _ _ hc) (List.mem_cons_self _ _)

theorem mem_dedupAux_mem (seen l : List String) (x : String)
    (h : x ∈ dedupAux seen l) : x ∈ l := by
  induction l generalizing seen with
  | nil => simp [dedupAux] at h
  | cons y rest ih =>
    rw [dedupAux] at h
    split at h
    · exact List.mem_cons_of_mem _ (ih seen h)
    · rcases List.mem_cons.mp h with h2 | h2
      · subst h2; exact List.mem_cons_self _ _
      · exact List.mem_cons_of_mem _ (ih (y :: seen) h2)

/-- C9.  `extractTableNames` returns a de-duplicated list of identifiers with
no ASCII capital left (all names are lower-cased); the identifier after the
keyword is taken with quote characters stripped and only the final segment of
a dotted name kept, as the concrete cases show: a quoted `UPDATE` target yields
exactly `["users"]`, a schema-qualified `INSERT` target keeps only the table
segment, and the same table reached through two forms is reported once. -/
theorem c9_extract_table_names :
    (∀ sql : String, (extractTableNames sql).Nodup) ∧
    (∀ (sql st : String), st ∈ extractTableNames sql →
      ∀ c ∈ st.toList, isAZ c = false) ∧
    extractTableNames "UPDATE \"Users\" SET active=1 WHERE id=1" = ["users"] ∧
    extractTableNames "INSERT INTO s.Logs (x) VALUES (1)" = ["logs"] ∧
    extractTableNames "INSERT INTO t (a) VALUES (1); UPDATE t SET a=2" = ["t"] := by
  refine ⟨?_, ?_, by decide, by decide, by decide⟩
  · intro sql
    exact dedupAux_nodup [] _
  · intro sql st h c hc
    simp only [extractTableNames, dedupFirst] at h
    have h2 := mem_dedupAux_mem _ _ _ h
    rw [List.mem_map] at h2
    obtain ⟨t, _, ht⟩ := h2
    subst ht
    rw [toList_mk] at hc
    unfold normalizeTableName at hc
    rw [List.mem_map] at hc
    obtain ⟨d, _, hd⟩ := hc
    subst hd
    exact isAZ_toLower d

/-- C9 witness: instantiation of the no-capitals clause at the quoted-update
example. -/
theorem c9_extract_table_names_witness :
    ∀ c ∈ ("users" : String).toList, isAZ c = false :=
  c9_extract_table_names.2.1 "UPDATE \"Users\" SET active=1 WHERE id=1" "users"
    (by decide)

/-! Step equations for the comment automata, used by the comment-only claim. -/

theorem rlcAux_false_cons (c : Char) (rest : List Char)
    (h : ¬(c = '-' ∧ rest.head? = some '-')) :
    rlcAux false (c :: rest) = c :: rlcAux false rest := by
  rw [rlcAux.eq_def]
  split
  all_goals simp_all

theorem rlcAux_true_cons (c : Char) (rest : List Char) (h : isLineTerm c = false) :
    rlcAux true (c :: rest) = rlcAux true rest := by
  rw [rlcAux.eq_def]
  split
  all_goals simp_all

theorem rbcAux_none_cons (c : Char) (rest : List Char)
    (h : ¬(c = '/' ∧ rest.head? = some '*')) :
    rbcAux none (c :: rest) = c :: rbcAux none rest := by
  rw [rbcAux.eq_def]
  split
  all_goals simp_all

theorem rbcAux_some_cons (buf : List Char) (c : Char) (rest : List Char)
    (h : ¬(c = '*' ∧ rest.head? = some '/')) :
    rbcAux (some buf) (c :: rest) = rbcAux (some (c :: buf)) rest := by
  rw [rbcAux.eq_def]
  split
  all_goals simp_all

theorem rbcAux_open (rest : List Char) :
    rbcAux none ('/' :: '*' :: rest) = rbcAux (some ['*', '/']) rest := rfl

theorem rbcAux_close (buf : List Char) (rest : List Char) :
    rbcAux (some buf) ('*' :: '/' :: rest) = rbcAux none rest := rfl

theorem rlcAux_false_dd (rest : List Char) :
    rlcAux false ('-' :: '-' :: rest) = rlcAux true rest := rfl

theorem rlcAux_true_term (c : Char) (rest : List Char) (h : isLineTerm c = true) :
    rlcAux true (c :: rest) = c :: rlcAux false rest := by
  rw [rlcAux.eq_def]
  split
  all_goals simp_all

theorem jsSpace_of_lineTerm (c : Char) (h : isLineTerm c = true) :
    jsSpace c = true := by
  rw [isLineTerm] at h
  simp only [Bool.or_eq_true, decide_eq_true_iff] at h
  rcases h with ((h | h) | h) | h <;> subst h <;> decide

theorem lineTerm_ne_slash (c : Char) (h : isLineTerm c = true) : ¬ c = '/' := by
  intro hx
  subst hx
  exact absurd h (by decide)

/-- Comment-only inputs leave, after the two comment-stripping passes, only
whitespace.  One conjunct per recognizer mode; the modes that sit between the
characters of a two-character token re-attach the consumed character, and the
block-comment modes are quantified over the buffer of the block pass. -/
theorem comment_pipeline_all_space (l : List Char) :
    (commentOnlyAux .outside l = true →
        (rbcAux none (rlcAux false l)).all jsSpace = true) ∧
    (commentOnlyAux .dash1 l = true →
        (rbcAux none (rlcAux false ('-' :: l))).all jsSpace = true) ∧
    (commentOnlyAux .slash1 l = true →
        (rbcAux none (rlcAux false ('/' :: l))).all jsSpace = true) ∧
    (commentOnlyAux .inLine l = true →
        (rbcAux none (rlcAux true l)).all jsSpace = true) ∧
    (commentOnlyAux .inBlock l = true → ∀ buf : List Char,
        (rbcAux (some buf) (rlcAux false l)).all jsSpace = true) ∧
    (commentOnlyAux .blockStar l = true → ∀ buf : List Char,
        (rbcAux (some buf) (rlcAux false ('*' :: l))).all jsSpace = true) ∧
    (commentOnlyAux .blockDash l = true → ∀ buf : List Char,
        (rbcAux (some buf) (rlcAux false ('-' :: l))).all jsSpace = true) := by
  induction l with
  | nil =>
    refine ⟨fun _ => by decide, fun hc => ?_, fun hc => ?_, fun _ => by decide,
      fun hc => ?_, fun hc => ?_, fun hc => ?_⟩ <;> simp [commentOnlyAux] at hc
  | cons c rest ih =>
    refine ⟨?_, ?_, ?_, ?_, ?_, ?_, ?_⟩
    · intro hc
      rw [commentOnlyAux] at hc
      by_cases hsp : jsSpace c = true
      · rw [if_pos hsp] at hc
        have hc1 : ¬ c = '-' := fun hx => by
          rw [hx] at hsp
          exact absurd hsp (by decide)
        have hc2 : ¬ c = '/' := fun hx => by
          rw [hx] at hsp
          exact absurd hsp (by decide)
        rw [rlcAux_false_cons _ _ (fun hx => hc1 hx.1),
          rbcAux_none_cons _ _ (fun hx => hc2 hx.1), List.all_cons, hsp,
          ih.1 hc]
        rfl
      · rw [if_neg hsp] at hc
        by_cases h1 : c = '-'
        · subst h1
          rw [if_pos rfl] at hc
          exact ih.2.1 hc
        · rw [if_neg h1] at hc
          by_cases h2 : c = '/'
          · subst h2
            rw [if_pos rfl] at hc
            exact ih.2.2.1 hc
          · rw [if_neg h2] at hc
            exact absurd hc (by simp)
    · intro hc
      rw [commentOnlyAux] at hc
      by_cases h1 : c = '-'
      · subst h1
        rw [if_pos rfl] at hc
        rw [rlcAux_false_dd]
        exact ih.2.2.2.1 hc
      · rw [if_neg h1] at hc
        exact absurd hc (by simp)
    · intro hc
      rw [commentOnlyAux] at hc
      by_cases h1 : c = '*'
      · subst h1
        rw [if_pos rfl] at hc
        have hr : rlcAux false ('/' :: '*' :: rest) =
            '/' :: '*' :: rlcAux false rest := by
          rw [rlcAux_false_cons _ _ (by simp), rlcAux_false_cons _ _ (by simp)]
        rw [hr, rbcAux_open]
        exact ih.2.2.2.2.1 hc ['*', '/']
      · rw [if_neg h1] at hc
        exact absurd hc (by simp)
    · intro hc
      rw [commentOnlyAux] at hc
      by_cases h1 : isLineTerm c = true
      · rw [if_pos h1] at hc
        rw [rlcAux_true_term _ _ h1,
          rbcAux_none_cons _ _ (fun hx => lineTerm_ne_slash c h1 hx.1),
          List.all_cons, jsSpace_of_lineTerm _ h1, ih.1 hc]
        rfl
      · rw [if_neg h1] at hc
        rw [rlcAux_true_cons _ _ ((Bool.eq_false_iff).mpr h1)]
        exact ih.2.2.2.1 hc
    · intro hc buf
      rw [commentOnlyAux] at hc
      by_cases h1 : c = '*'
      · subst h1
        rw [if_pos rfl] at hc
        exact ih.2.2.2.2.2.1 hc buf
      · rw [if_neg h1] at hc
        by_cases h2 : c = '-'
        · subst h2
          rw [if_pos rfl] at hc
          exact ih.2.2.2.2.2.2 hc buf
        · rw [if_neg h2] at hc
          rw [rlcAux_false_cons _ _ (fun hx => h2 hx.1),
            rbcAux_some_cons _ _ _ (fun hx => h1 hx.1)]
          exact ih.2.2.2.2.1 hc (c :: buf)
    · intro hc buf
      rw [commentOnlyAux] at hc
      by_cases h1 : c = '/'
      · subst h1
        rw [if_pos rfl] at hc
        have hr : rlcAux false ('*' :: '/' :: rest) =
            '*' :: '/' :: rlcAux false rest := by
          rw [rlcAux_false_cons _ _ (by simp), rlcAux_false_cons _ _ (by simp)]
        rw [hr, rbcAux_close]
        exact ih.1 hc
      · rw [if_neg h1] at hc
        by_cases h2 : c = '*'
        · subst h2
          rw [if_pos rfl] at hc
          have hr : rlcAux false ('*' :: '*' :: rest) =
              '*' :: rlcAux false ('*' :: rest) := by
            rw [rlcAux_false_cons _ _ (by simp)]
          have hhead : (rlcAux false ('*' :: rest)).head? = some '*' := by
            rw [rlcAux_false_cons _ _ (by simp)]
            rfl
          rw [hr, rbcAux_some_cons _ _ _ (fun hx => by
            rw [hhead] at hx
            exact absurd hx.2 (by decide))]
          exact ih.2.2.2.2.2.1 hc ('*' :: buf)
        · rw [if_neg h2] at hc
          by_cases h3 : c = '-'
          · subst h3
            rw [if_pos rfl] at hc
            have hhead : (rlcAux false ('-' :: rest)).head? = some '-' := by
              cases rest with
              | nil => rfl
              | cons d r2 =>
                by_cases hd : d = '-'
                · subst hd
                  rw [commentOnlyAux, if_pos rfl] at hc
                  exact absurd hc (by simp)
                · rw [rlcAux_false_cons _ _ (fun hx => hd (by
                    simpa using hx.2))]
                  rfl
            have hr : rlcAux false ('*' :: '-' :: rest) =
                '*' :: rlcAux false ('-' :: rest) := by
              rw [rlcAux_false_cons _ _ (by simp)]
            rw [hr, rbcAux_some_cons _ _ _ (fun hx => by
              rw [hhead] at hx
              exact absurd hx.2 (by decide))]
            exact ih.2.2.2.2.2.2 hc ('*' :: buf)
          · rw [if_neg h3] at hc
            have hr : rlcAux false ('*' :: c :: rest) =
                '*' :: c :: rlcAux false rest := by
              rw [rlcAux_false_cons _ _ (by simp),
                rlcAux_false_cons _ _ (fun hx => h3 hx.1)]
            rw [hr, rbcAux_some_cons _ _ _ (fun hx => h1 (by
              simpa using hx.2)),
              rbcAux_some_cons _ _ _ (fun hx => h2 hx.1)]
            exact ih.2.2.2.2.1 hc (c :: '*' :: buf)
    · intro hc buf
      rw [commentOnlyAux] at hc
      by_cases h1 : c = '-'
      · subst h1
        rw [if_pos rfl] at hc
        exact absurd hc (by simp)
      · rw [if_neg h1] at hc
        by_cases h2 : c = '*'
        · subst h2
          rw [if_pos rfl] at hc
          have hr : rlcAux false ('-' :: '*' :: rest) =
              '-' :: rlcAux false ('*' :: rest) := by
            rw [rlcAux_false_cons _ _ (by simp)]
          rw [hr, rbcAux_some_cons _ _ _ (by simp)]
          exact ih.2.2.2.2.2.1 hc ('-' :: buf)
        · rw [if_neg h2] at hc
          have hr : rlcAux false ('-' :: c :: rest) =
              '-' :: c :: rlcAux false rest := by
            rw [rlcAux_false_cons _ _ (fun hx => h1 (by simpa using hx.2)),
              rlcAux_false_cons _ _ (fun hx => h1 hx.1)]
          rw [hr, rbcAux_some_cons _ _ _ (fun hx => by
            exact absurd hx.1 (by decide)),
            rbcAux_some_cons _ _ _ (fun hx => h2 hx.1)]
          exact ih.2.2.2.2.1 hc (c :: '-' :: buf)

/-- After the comment passes leave only whitespace, the rest of the
normalization pipeline produces the empty text. -/
theorem allSpace_post_pipeline (l : List Char) (h : l.all jsSpace = true) :
    trimL (collapseWhitespace (newlineToSemicolon l)) = [] := by
  have hnl : newlineToSemicolon l = l := by
    have key : ∀ (l2 : List Char) (p : Bool) (buf : List Char),
        l2.all jsSpace = true → nlAux p buf l2 = buf.reverse ++ l2 := by
      intro l2
      induction l2 with
      | nil => intro p buf _; simp [nlAux]
      | cons c rest ih =>
        intro p buf hall
        rw [List.all_cons, Bool.and_eq_true] at hall
        rw [nlAux, if_pos hall.1, ih _ _ hall.2]
        simp
    rw [newlineToSemicolon, key l false [] h]
    rfl
  rw [hnl]
  have hcw : ∀ (l2 : List Char), l2.all jsSpace = true → cwAux true l2 = [] := by
    intro l2
    induction l2 with
    | nil => intro _; rfl
    | cons d r2 ih =>
      intro hall
      rw [List.all_cons, Bool.and_eq_true] at hall
      rw [cwAux, if_pos hall.1]
      simp only [if_pos rfl]
      exact ih hall.2
  cases l with
  | nil => decide
  | cons c rest =>
    rw [List.all_cons, Bool.and_eq_true] at h
    have hcol : collapseWhitespace (c :: rest) = [' '] := by
      rw [collapseWhitespace, cwAux, if_pos h.1]
      simp only [Bool.false_eq_true, if_neg]
      rw [hcw rest h.2]
      simp
    rw [hcol]
    decide

/-- C10 counterexample: `"/* -- */"` consists only of a single SQL block
comment, yet the line-comment pass (which runs first) truncates it at the inner
`--`, so splitting yields the statement `"/*"` and Propose reports it forbidden
instead of passing the text to the database collaborator. -/
theorem c10_comment_only_counterexample :
    splitSqlStatements "/* -- */" = ["/*"] ∧
    runSQL "/* -- */" "tok" 0 [] trivialDb = (.forbidden "/*", [], []) :=
  ⟨by decide, by decide⟩

/-- C10 (amended).  For every raw input consisting only of whitespace, line
comments, and block comments whose bodies contain no `--`, splitting yields
zero statements, so Propose classifies the input neither forbidden nor
mutating and passes the original text directly to the database collaborator. -/
theorem c10_comment_only_passthrough (sql freshToken : String) (now : Nat)
    (m : TokenMap) (db : String → DbResult)
    (h : commentOnly sql.toList = true) :
    splitSqlStatements sql = [] ∧
    runSQL sql freshToken now m db = (.success (db sql), m, [sql]) := by
  have hall : (rbcAux none (rlcAux false sql.toList)).all jsSpace = true :=
    (comment_pipeline_all_space sql.toList).1 h
  have hnorm : normalizeSqlL sql.toList = [] := allSpace_post_pipeline _ hall
  have hsplit : splitSqlStatements sql = [] := by
    unfold splitSqlStatements
    rw [hnorm]
    rfl
  refine ⟨hsplit, ?_⟩
  have hforb : getForbiddenOperation sql = none := by
    unfold getForbiddenOperation
    rw [hsplit]
    rfl
  have hupd : isUpdateOperation sql = false := by
    unfold isUpdateOperation
    rw [hsplit]
    rfl
  unfold runSQL
  rw [hforb]
  simp [hupd]

/-- C10 witness: a whitespace-newline-line-comment-block-comment mixture splits
to nothing and is passed through verbatim. -/
theorem c10_comment_only_passthrough_witness :
    splitSqlStatements " /* a\nb */ \t -- tail" = [] ∧
    runSQL " /* a\nb */ \t -- tail" "tok" 0 [] trivialDb =
      (.success (trivialDb " /* a\nb */ \t -- tail"), [],
        [" /* a\nb */ \t -- tail"]) :=
  c10_comment_only_passthrough " /* a\nb */ \t -- tail" "tok" 0 [] trivialDb
    (by decide)

end SqlAgent
